import Mathlib

/-!
Verification development for the beets-ibroadcast playlist synchronization
plugin (`src/beetsplug/ibroadcast/playlist_sync.py`).

The development shallowly embeds the playlist-sync core in Lean:

* strings are modelled as `List Char` (`Str`), file-system paths as `MPath`
  (an absolute-flag plus a component list, mirroring `pathlib.PurePosixPath`
  after `os.path.normpath` normalization as performed by `helpers.normpath`);
* the M3U codec (`_parse_m3u`, `_write_m3u`, `_write_conflicted_m3u`) acts on
  lists of lines; the actual file I/O boundary joins lines with `'\n'` and
  reads them back with `readlines` followed by `strip`, which is the identity
  on newline-free lines, so the line-list level is the faithful unit;
* the three-way merge `_merge_trackids` is embedded together with a model of
  the matching-block computation (`difflib.SequenceMatcher` is a Python
  standard-library collaborator, outside this repository; it is modelled from
  the spec's description: longest common matching blocks, computed
  recursively, value-based);
* orchestrator fragments (`_download_linked_playlist`,
  `_handle_download_deletions`, `_get_state_path`, `_load_state`,
  `_parse_m3u_to_trackids`) are embedded as pure functions from their inputs
  to the list of externally visible effects they perform.
-/

/-! ## Character-list strings -/

/-- Strings are modelled as lists of characters, so that every string
operation used by the playlist codec is structurally recursive and
computable by the kernel. -/
abbrev Str := List Char

/-- Whitespace test of Python's `str.strip` / `str.isspace`: the exact
character set CPython strips — 0x09-0x0d (tab to carriage return),
0x1c-0x20 (the separator controls and the space), next-line 0x85,
no-break space 0xa0, Ogham space mark 0x1680, the Unicode space
separators 0x2000-0x200a, line separator 0x2028, paragraph separator
0x2029, narrow no-break space 0x202f, medium mathematical space 0x205f
and ideographic space 0x3000. -/
def wsChar (c : Char) : Bool :=
  (0x09 ≤ c.val && c.val ≤ 0x0d) || (0x1c ≤ c.val && c.val ≤ 0x20) ||
    c.val = 0x85 || c.val = 0xa0 || c.val = 0x1680 ||
    (0x2000 ≤ c.val && c.val ≤ 0x200a) || c.val = 0x2028 || c.val = 0x2029 ||
    c.val = 0x202f || c.val = 0x205f || c.val = 0x3000

/-- Python `str.strip`: drop whitespace from both ends. -/
def strTrim (s : Str) : Str :=
  ((s.dropWhile wsChar).reverse.dropWhile wsChar).reverse

/-- Join components with a separator character (, as in
`'/'.join` / `str` of a relative `pathlib` path). -/
def strJoin (sep : Char) : List Str → Str
  | [] => []
  | [c] => c
  | c :: cs => c ++ sep :: strJoin sep cs

/-- Split a character list at every occurrence of the separator. -/
def strSplitOn (sep : Char) : Str → List Str
  | [] => [[]]
  | c :: cs =>
    if c = sep then [] :: strSplitOn sep cs
    else
      match strSplitOn sep cs with
      | r :: rs => (c :: r) :: rs
      | [] => [[c]]

/-! ## Paths

`helpers.normpath` decodes bytes and applies `os.path.normpath`, producing a
`pathlib.Path`.  A POSIX path is modelled by its absolute flag and its list
of components. -/

/-- A file-system path: `absFlag` records a leading `/`, `comps` the
components, as in `pathlib.PurePosixPath.parts`. -/
structure MPath where
  absFlag : Bool
  comps : List Str
deriving DecidableEq, Repr

/-- One step of `posixpath.normpath`'s component loop: drop empty and `.`
components, resolve `..` against the accumulated prefix (an unmatched `..`
is dropped at the root of an absolute path and kept for a relative one). -/
def normStep (isAbs : Bool) (acc : List Str) (comp : Str) : List Str :=
  if comp = [] || comp = ['.'] then acc
  else if comp = ['.', '.'] then
    if acc = [] then (if isAbs then [] else [['.', '.']])
    else if acc.getLast? = some ['.', '.'] then acc ++ [comp]
    else acc.dropLast
  else acc ++ [comp]

/-- Component list of `os.path.normpath`. -/
def normComps (isAbs : Bool) (cs : List Str) : List Str :=
  cs.foldl (normStep isAbs) []

/-- `helpers.normpath` on an `MPath`: lexical normalization, no syscalls. -/
def normMPath (p : MPath) : MPath :=
  ⟨p.absFlag, normComps p.absFlag p.comps⟩

/-- `pathlib` component parsing of a raw string: split on `/`, drop empty
and single-dot components. -/
def parseComps (s : Str) : List Str :=
  (strSplitOn '/' s).filter (fun c => !(c = [] || c = ['.']))

/-- `pathlib.Path(s)`: absolute iff the string starts with `/`. -/
def strToPath (s : Str) : MPath :=
  ⟨s.head? = some '/', parseComps s⟩

/-- `base / line` for a raw string `line` (pathlib `__truediv__`): an
absolute `line` replaces `base`, otherwise its components are appended. -/
def joinPath (base : MPath) (line : Str) : MPath :=
  if line.head? = some '/' then strToPath line
  else ⟨base.absFlag, base.comps ++ parseComps line⟩

/-- `str()` of a path: `/`-joined components, with a leading `/` when
absolute and `.` for the empty relative path. -/
def pathStr (p : MPath) : Str :=
  if p.absFlag then '/' :: strJoin '/' p.comps
  else if p.comps = [] then ['.'] else strJoin '/' p.comps

/-- Bool-valued list-leads test: `pre` is an initial segment of `l`
(`PurePath.relative_to` succeeds exactly when the base's parts lead the
path's parts). -/
def listLeads : List Str → List Str → Bool
  | [], _ => true
  | _ :: _, [] => false
  | x :: xs, y :: ys => x = y && listLeads xs ys

/-- `path.relative_to(base)`: the remaining components when `base` leads
`path`, `none` for the `ValueError` case. -/
def relParts? (p base : MPath) : Option (List Str) :=
  if p.absFlag = base.absFlag && listLeads base.comps p.comps then
    some (p.comps.drop base.comps.length)
  else none

/-! ## M3U codec (`_parse_m3u`, `_write_m3u`) -/

/-- Line filter of `_parse_m3u`: keep stripped lines that are non-empty and
do not start with the comment marker `#`. -/
def keepLine (l : Str) : Bool :=
  decide (0 < l.length) && !(l.head? = some '#')

/-- `_parse_m3u`: strip every line, drop blanks and comments, resolve the
rest against the track prefix and normalize. -/
def parseM3u (lines : List Str) (trackBase : MPath) : List MPath :=
  ((lines.map strTrim).filter keepLine).map (fun l => normMPath (joinPath trackBase l))

/-- Serialized line of one track path in `_write_m3u` and
`_write_conflicted_m3u._path_line`: relative to the base directory when
representable, otherwise the absolute form. -/
def writeLine (tp : MPath) (baseDir : MPath) : Str :=
  match relParts? tp baseDir with
  | some rest => pathStr ⟨false, rest⟩
  | none => pathStr tp

/-- `_write_m3u`: one line per track path. -/
def writeM3u (trackPaths : List MPath) (baseDir : MPath) : List Str :=
  trackPaths.map (fun tp => writeLine tp baseDir)

/-! ## Well-formed paths and codec round-trip lemmas -/

/-- Every character of a joined string is a separator or a component
character. -/
theorem strJoin_mem (sep : Char) (cs : List Str) (ch : Char)
    (h : ch ∈ strJoin sep cs) : ch = sep ∨ ∃ c ∈ cs, ch ∈ c := by
  induction cs with
  | nil => simp [strJoin] at h
  | cons c cs ih =>
    cases cs with
    | nil =>
      simp only [strJoin] at h
      exact Or.inr ⟨c, by simp, h⟩
    | cons d ds =>
      have : strJoin sep (c :: d :: ds) = c ++ sep :: strJoin sep (d :: ds) := rfl
      rw [this] at h
      rcases List.mem_append.mp h with h1 | h2
      · exact Or.inr ⟨c, by simp, h1⟩
      · rcases List.mem_cons.mp h2 with h3 | h4
        · exact Or.inl h3
        · rcases ih h4 with h5 | ⟨e, he, hche⟩
          · exact Or.inl h5
          · exact Or.inr ⟨e, by simp [he], hche⟩

theorem dropWhile_all_false {p : Char → Bool} {s : Str}
    (h : ∀ ch ∈ s, p ch = false) : s.dropWhile p = s := by
  cases s with
  | nil => rfl
  | cons c cs => simp [List.dropWhile_cons, h c (by simp)]

theorem strTrim_noop {s : Str} (h : ∀ ch ∈ s, wsChar ch = false) : strTrim s = s := by
  unfold strTrim
  rw [dropWhile_all_false h,
    dropWhile_all_false (fun ch hch => h ch (List.mem_reverse.mp hch)),
    List.reverse_reverse]

/-- Merge output segment (`_merge_trackids` emits tagged tuples). -/
inductive Segment where
  | clean : List Nat → Segment
  | conflict : List Nat → List Nat → Segment
deriving DecidableEq, Repr

def isCleanSeg : Segment → Bool
  | .clean _ => true
  | .conflict _ _ => false

def isConflictSeg : Segment → Bool
  | .clean _ => false
  | .conflict _ _ => true

/-- Track-ID to local-path lookup (the `trackid_to_path` dict; keys are
unique, so first-match association lookup models it). -/
def lookupTid (m : List (Nat × MPath)) (tid : Nat) : Option MPath :=
  (m.find? (fun kv => kv.1 = tid)).map (fun kv => kv.2)

/-- The `'# unresolved track …'` placeholder comment line emitted for a
track ID absent from the map. -/
def unresolvedLine (tid : Nat) : Str :=
  "# unresolved track ".toList ++ Nat.toDigits 10 tid

/-- `_write_conflicted_m3u._path_line`: resolved ids render like
`_write_m3u` lines, unresolved ids render as a comment placeholder. -/
def pathLine (m : List (Nat × MPath)) (baseDir : MPath) (tid : Nat) : Str :=
  match lookupTid m tid with
  | none => unresolvedLine tid
  | some path => writeLine path baseDir

def markerLocal : Str := "#<<<<<<< local".toList

def markerMid : Str := "#=======".toList

def markerRemote : Str := "#>>>>>>> remote".toList

/-- `_write_conflicted_m3u`: clean segments become path lines; a conflict
segment is rendered as comment markers around the local alternative lines
and the remote alternative lines. -/
def writeConflictedM3u (segments : List Segment) (m : List (Nat × MPath))
    (baseDir : MPath) : List Str :=
  segments.flatMap (fun seg =>
    match seg with
    | .clean tids => tids.map (pathLine m baseDir)
    | .conflict lts rts =>
      markerLocal :: (lts.map (pathLine m baseDir) ++
        markerMid :: (rts.map (pathLine m baseDir) ++ [markerRemote])))

/-- Length of the common run of two sequences read from their heads. -/
def matchLenAux : List Nat → List Nat → Nat
  | x :: xs, y :: ys => if x = y then matchLenAux xs ys + 1 else 0
  | _, _ => 0

/-- Common-run length at `(i, j)`, clipped to the window ends. -/
def winLen (a b : List Nat) (ahi bhi i j : Nat) : Nat :=
  min (matchLenAux (a.drop i) (b.drop j)) (min (ahi - i) (bhi - j))

/-- All candidate matches of the window: every start pair with its run
length. -/
def candList (a b : List Nat) (alo ahi blo bhi : Nat) : List (Nat × Nat × Nat) :=
  (List.range' alo (ahi - alo)).flatMap (fun i =>
    (List.range' blo (bhi - blo)).map (fun j => (i, j, winLen a b ahi bhi i j)))

/-- Keep the strictly longer candidate, so the first longest wins. -/
def pickBest (best c : Nat × Nat × Nat) : Nat × Nat × Nat :=
  if best.2.2 < c.2.2 then c else best

/-- Modelled from the spec: the longest match of the window (earliest start
positions on ties), the core query of the matching-block computation. -/
def findLongestMatch (a b : List Nat) (alo ahi blo bhi : Nat) : Nat × Nat × Nat :=
  (candList a b alo ahi blo bhi).foldl pickBest (alo, blo, 0)

/-- Modelled from the spec: matching blocks of the window — recurse left and
right of the longest match.  The fuel argument makes the recursion
structural; any fuel at least the window width plus one is enough, and all
soundness lemmas hold for every fuel. -/
def matchingBlocksAux (a b : List Nat) : Nat → Nat → Nat → Nat → Nat → List (Nat × Nat × Nat)
  | 0, _, _, _, _ => []
  | fuel + 1, alo, ahi, blo, bhi =>
    let m := findLongestMatch a b alo ahi blo bhi
    if 0 < m.2.2 then
      matchingBlocksAux a b fuel alo m.1 blo m.2.1 ++
        m :: matchingBlocksAux a b fuel (m.1 + m.2.2) ahi (m.2.1 + m.2.2) bhi
    else []

/-- Modelled from the spec: `get_matching_blocks` of the two sequences
(without the zero-length terminator block, which the merge loop ignores). -/
def matchingBlocks (a b : List Nat) : List (Nat × Nat × Nat) :=
  matchingBlocksAux a b (a.length + 1) 0 a.length 0 b.length

/-! ## Three-way merge (`_merge_trackids`) -/

/-- The anchored base positions with their aligned positions on the other
side: `(ba + i, xa + i)` for every block `(ba, xa, size)` and `i < size`
(the `*_anchored` sets and `base_to_*` dicts of `_merge_trackids`). -/
def anchoredPairs (blocks : List (Nat × Nat × Nat)) : List (Nat × Nat) :=
  blocks.flatMap (fun blk => (List.range blk.2.2).map (fun t => (blk.1 + t, blk.2.1 + t)))

/-- Dict lookup `base_to_local[bi]` / `base_to_remote[bi]`; anchored base
positions are unique, so first-match association lookup models the dict. -/
def lookupAnchor (P : List (Nat × Nat)) (bi : Nat) : Nat :=
  match P.find? (fun q => q.1 = bi) with
  | some q => q.2
  | none => 0

/-- Python slice `l[lo:hi]`. -/
def pySlice (l : List Nat) (lo hi : Nat) : List Nat :=
  (l.drop lo).take (hi - lo)

/-- `_classify_gap`: compare the local and remote gap contents with the
base gap.  The branch structure mirrors the source: unchanged versus
one-sided change versus convergent change versus empty-base double
insertion versus conflict.  Returned are the appended segments and the
conflict flag. -/
def classifyGap (bg lg rg : List Nat) : List Segment × Bool :=
  if lg = bg then
    if rg = bg then ((if bg.isEmpty then [] else [.clean bg]), false)
    else ((if rg.isEmpty then [] else [.clean rg]), false)
  else
    if rg = bg then ((if lg.isEmpty then [] else [.clean lg]), false)
    else if lg = rg then ((if lg.isEmpty then [] else [.clean lg]), false)
    else if bg.isEmpty then ([.clean (lg ++ rg)], false)
    else ([.conflict lg rg], true)

/-- Loop state of `_merge_trackids`: the three cursor positions, the
emitted segments and the conflict flag. -/
structure MergeAcc where
  basePos : Nat
  localPos : Nat
  remotePos : Nat
  segs : List Segment
  conflicts : Bool
deriving DecidableEq, Repr

/-- One iteration of the sync-point loop of `_merge_trackids`: classify the
three gaps before the sync point, then emit the sync point itself as a
single-element clean segment and advance all three cursors. -/
def mergeStep (base loc rem : List Nat) (b2l b2r : List (Nat × Nat))
    (acc : MergeAcc) (bi : Nat) : MergeAcc :=
  let li := lookupAnchor b2l bi
  let ri := lookupAnchor b2r bi
  let cg := classifyGap (pySlice base acc.basePos bi) (pySlice loc acc.localPos li)
    (pySlice rem acc.remotePos ri)
  { basePos := bi + 1, localPos := li + 1, remotePos := ri + 1,
    segs := acc.segs ++ cg.1 ++ [.clean [base.getD bi 0]],
    conflicts := acc.conflicts || cg.2 }

/-- One step of coalescing: a clean segment is merged into a following
clean segment, every other segment is kept. -/
def coalesceCons : Segment → List Segment → List Segment
  | .clean xs, .clean ys :: r => .clean (xs ++ ys) :: r
  | s, r => s :: r

/-- The final coalescing loop of `_merge_trackids`: each clean segment is
merged into an adjacent clean neighbour, leaving maximal clean runs
concatenated in order (the Python loop folds left-to-right into the
previous segment; merging adjacent clean runs is associative, so folding
from the right gives the same list). -/
def coalesce : List Segment → List Segment
  | [] => []
  | s :: rest => coalesceCons s (coalesce rest)

/-- `_merge_trackids`: diff3-style three-way merge of track-ID lists.
`sync_indices` is `sorted(bl_anchored & br_anchored)` in the source; the
anchored base indices of a block list are strictly increasing (proved
below), so filtering the first anchor list by membership in the second
enumerates the same ascending, duplicate-free intersection. -/
def mergeTrackids (base loc rem : List Nat) : List Segment × Bool :=
  let b2l := anchoredPairs (matchingBlocks base loc)
  let b2r := anchoredPairs (matchingBlocks base rem)
  let syncIdx := (b2l.map Prod.fst).filter (fun bi => (b2r.map Prod.fst).contains bi)
  let acc := syncIdx.foldl (mergeStep base loc rem b2l b2r) ⟨0, 0, 0, [], false⟩
  let cg := classifyGap (base.drop acc.basePos) (loc.drop acc.localPos)
    (rem.drop acc.remotePos)
  (coalesce (acc.segs ++ cg.1), acc.conflicts || cg.2)

set_option maxRecDepth 100000

example : mergeTrackids [1, 2, 3] [1, 2, 3] [1, 2, 3] = ([.clean [1, 2, 3]], false) := by
  decide

example : mergeTrackids [1, 2, 3] [1, 2, 3, 4] [1, 2, 3] = ([.clean [1, 2, 3, 4]], false) := by
  decide

example : mergeTrackids [1, 2, 3, 4, 5] [1, 9, 3, 4, 5] [1, 2, 3, 4, 8]
    = ([.clean [1, 9, 3, 4, 8]], false) := by decide

example : mergeTrackids [1, 2, 3] [1, 9, 3] [1, 8, 3]
    = ([.clean [1], .conflict [9] [8], .clean [3]], true) := by decide

example : mergeTrackids [1, 2, 3] [1, 3] [1, 3] = ([.clean [1, 3]], false) := by decide

example : mergeTrackids [1, 2, 3] [1, 3] [1, 9, 3]
    = ([.clean [1], .conflict [] [9], .clean [3]], true) := by decide

example : mergeTrackids [] [1] [2] = ([.clean [1, 2]], false) := by decide

/-! ## Soundness of the matching-block model -/

theorem matchLenAux_spec : ∀ (xs ys : List Nat) (t : Nat), t < matchLenAux xs ys →
    xs[t]? = ys[t]? ∧ (xs[t]?).isSome := by
  intro xs
  induction xs with
  | nil => intro ys t ht; simp [matchLenAux] at ht
  | cons x xs ih =>
    intro ys t ht
    cases ys with
    | nil => simp [matchLenAux] at ht
    | cons y ys =>
      by_cases hxy : x = y
      · simp only [matchLenAux, if_pos hxy] at ht
        cases t with
        | zero => simp [hxy]
        | succ t' =>
          have := ih ys t' (by omega)
          simpa using this
      · simp [matchLenAux, hxy] at ht

theorem winLen_le_a (a b : List Nat) (ahi bhi i j : Nat) :
    winLen a b ahi bhi i j ≤ ahi - i := by
  unfold winLen
  omega

theorem winLen_le_b (a b : List Nat) (ahi bhi i j : Nat) :
    winLen a b ahi bhi i j ≤ bhi - j := by
  unfold winLen
  omega

theorem winLen_match (a b : List Nat) (ahi bhi i j t : Nat)
    (ht : t < winLen a b ahi bhi i j) :
    a[i + t]? = b[j + t]? ∧ (a[i + t]?).isSome := by
  have h1 : t < matchLenAux (a.drop i) (b.drop j) := by
    unfold winLen at ht
    omega
  have := matchLenAux_spec (a.drop i) (b.drop j) t h1
  rwa [List.getElem?_drop, List.getElem?_drop] at this

theorem candList_mem (a b : List Nat) (alo ahi blo bhi : Nat)
    (c : Nat × Nat × Nat) (hc : c ∈ candList a b alo ahi blo bhi) :
    alo ≤ c.1 ∧ c.1 < ahi ∧ blo ≤ c.2.1 ∧ c.2.1 < bhi ∧
      c.2.2 = winLen a b ahi bhi c.1 c.2.1 := by
  unfold candList at hc
  simp only [List.mem_flatMap, List.mem_map, List.mem_range'_1] at hc
  obtain ⟨i, hi, j, hj, hcc⟩ := hc
  subst hcc
  show alo ≤ i ∧ i < ahi ∧ blo ≤ j ∧ j < bhi ∧
    winLen a b ahi bhi i j = winLen a b ahi bhi i j
  exact ⟨by omega, by omega, by omega, by omega, rfl⟩

theorem foldl_pickBest_mem : ∀ (l : List (Nat × Nat × Nat)) (init : Nat × Nat × Nat),
    l.foldl pickBest init = init ∨ l.foldl pickBest init ∈ l := by
  intro l
  induction l with
  | nil => intro init; left; rfl
  | cons c cs ih =>
    intro init
    rw [List.foldl_cons]
    rcases ih (pickBest init c) with h | h
    · rw [h]
      unfold pickBest
      by_cases hlt : init.2.2 < c.2.2
      · right; rw [if_pos hlt]; simp
      · left; rw [if_neg hlt]
    · right
      exact List.mem_cons_of_mem _ h

theorem findLongestMatch_spec (a b : List Nat) (alo ahi blo bhi : Nat)
    (hk : 0 < (findLongestMatch a b alo ahi blo bhi).2.2) :
    alo ≤ (findLongestMatch a b alo ahi blo bhi).1 ∧
      (findLongestMatch a b alo ahi blo bhi).1 < ahi ∧
      blo ≤ (findLongestMatch a b alo ahi blo bhi).2.1 ∧
      (findLongestMatch a b alo ahi blo bhi).2.1 < bhi ∧
      (findLongestMatch a b alo ahi blo bhi).1 +
        (findLongestMatch a b alo ahi blo bhi).2.2 ≤ ahi ∧
      (findLongestMatch a b alo ahi blo bhi).2.1 +
        (findLongestMatch a b alo ahi blo bhi).2.2 ≤ bhi ∧
      ∀ t < (findLongestMatch a b alo ahi blo bhi).2.2,
        a[(findLongestMatch a b alo ahi blo bhi).1 + t]?
          = b[(findLongestMatch a b alo ahi blo bhi).2.1 + t]? ∧
        (a[(findLongestMatch a b alo ahi blo bhi).1 + t]?).isSome := by
  unfold findLongestMatch at hk ⊢
  rcases foldl_pickBest_mem (candList a b alo ahi blo bhi) (alo, blo, 0) with h | h
  · exfalso
    rw [h] at hk
    exact Nat.lt_irrefl 0 hk
  · have hc := candList_mem a b alo ahi blo bhi _ h
    obtain ⟨h1, h2, h3, h4, h5⟩ := hc
    have hla := winLen_le_a a b ahi bhi
      (List.foldl pickBest (alo, blo, 0) (candList a b alo ahi blo bhi)).1
      (List.foldl pickBest (alo, blo, 0) (candList a b alo ahi blo bhi)).2.1
    have hlb := winLen_le_b a b ahi bhi
      (List.foldl pickBest (alo, blo, 0) (candList a b alo ahi blo bhi)).1
      (List.foldl pickBest (alo, blo, 0) (candList a b alo ahi blo bhi)).2.1
    refine ⟨h1, h2, h3, h4, by omega, by omega, ?_⟩
    intro t ht
    rw [h5] at ht
    exact winLen_match a b ahi bhi _ _ t ht

/-- Soundness certificate for anchored-pair lists: the pairs are strictly
increasing in both coordinates between the bounds and each pair is a value
match of the two sequences. -/
inductive GoodChain (a b : List Nat) : Nat × Nat → List (Nat × Nat) → Nat × Nat → Prop where
  | nil : ∀ lo hi, lo.1 ≤ hi.1 → lo.2 ≤ hi.2 → GoodChain a b lo [] hi
  | cons : ∀ lo i j P hi, lo.1 ≤ i → lo.2 ≤ j →
      a[i]? = b[j]? → (a[i]?).isSome →
      GoodChain a b (i + 1, j + 1) P hi → GoodChain a b lo ((i, j) :: P) hi

theorem GoodChain.mono_lo {a b : List Nat} {lo lo' hi : Nat × Nat}
    {P : List (Nat × Nat)} (h : GoodChain a b lo P hi)
    (h1 : lo'.1 ≤ lo.1) (h2 : lo'.2 ≤ lo.2) : GoodChain a b lo' P hi := by
  cases h with
  | nil lo hi ha hb => exact .nil _ _ (le_trans h1 ha) (le_trans h2 hb)
  | cons lo i j P hi hi1 hj1 hm hs hrest =>
    exact .cons _ _ _ _ _ (le_trans h1 hi1) (le_trans h2 hj1) hm hs hrest

theorem GoodChain.append {a b : List Nat} {lo mid hi : Nat × Nat}
    {P1 P2 : List (Nat × Nat)} (h1 : GoodChain a b lo P1 mid)
    (h2 : GoodChain a b mid P2 hi) : GoodChain a b lo (P1 ++ P2) hi := by
  revert h2
  induction h1 with
  | nil lo' hi' ha hb =>
    intro h2
    exact h2.mono_lo ha hb
  | cons lo' i j P hi' hi1 hj1 hm hs hrest ih =>
    intro h2
    exact .cons _ _ _ _ _ hi1 hj1 hm hs (ih h2)

theorem goodChain_block (a b : List Nat) (i j k : Nat)
    (hmatch : ∀ t < k, a[i + t]? = b[j + t]? ∧ (a[i + t]?).isSome) :
    GoodChain a b (i, j) ((List.range k).map (fun t => (i + t, j + t)))
      (i + k, j + k) := by
  induction k with
  | zero => exact .nil _ _ (by simp) (by simp)
  | succ k ih =>
    have hk := ih (fun t ht => hmatch t (by omega))
    have hm := hmatch k (by omega)
    have hlast : GoodChain a b (i + k, j + k) [(i + k, j + k)]
        (i + (k + 1), j + (k + 1)) :=
      .cons _ _ _ _ _ (le_refl _) (le_refl _) hm.1 hm.2
        (.nil _ _ (by omega) (by omega))
    have := hk.append hlast
    rw [List.range_succ, List.map_append]
    simpa using this

theorem goodChain_matchingBlocksAux (a b : List Nat) :
    ∀ (fuel alo ahi blo bhi : Nat), alo ≤ ahi → blo ≤ bhi →
      GoodChain a b (alo, blo)
        (anchoredPairs (matchingBlocksAux a b fuel alo ahi blo bhi)) (ahi, bhi) := by
  intro fuel
  induction fuel with
  | zero =>
    intro alo ahi blo bhi h1 h2
    exact .nil _ _ h1 h2
  | succ fuel ih =>
    intro alo ahi blo bhi h1 h2
    by_cases hk : 0 < (findLongestMatch a b alo ahi blo bhi).2.2
    · obtain ⟨hi1, hi2, hj1, hj2, hik, hjk, hm⟩ :=
        findLongestMatch_spec a b alo ahi blo bhi hk
      have hunfold : matchingBlocksAux a b (fuel + 1) alo ahi blo bhi =
          matchingBlocksAux a b fuel alo (findLongestMatch a b alo ahi blo bhi).1
            blo (findLongestMatch a b alo ahi blo bhi).2.1 ++
          findLongestMatch a b alo ahi blo bhi ::
            matchingBlocksAux a b fuel
              ((findLongestMatch a b alo ahi blo bhi).1 +
                (findLongestMatch a b alo ahi blo bhi).2.2) ahi
              ((findLongestMatch a b alo ahi blo bhi).2.1 +
                (findLongestMatch a b alo ahi blo bhi).2.2) bhi := by
        simp only [matchingBlocksAux, hk, if_true]
      rw [hunfold]
      have hdist : anchoredPairs (matchingBlocksAux a b fuel alo
            (findLongestMatch a b alo ahi blo bhi).1 blo
            (findLongestMatch a b alo ahi blo bhi).2.1 ++
          findLongestMatch a b alo ahi blo bhi ::
            matchingBlocksAux a b fuel
              ((findLongestMatch a b alo ahi blo bhi).1 +
                (findLongestMatch a b alo ahi blo bhi).2.2) ahi
              ((findLongestMatch a b alo ahi blo bhi).2.1 +
                (findLongestMatch a b alo ahi blo bhi).2.2) bhi) =
          anchoredPairs (matchingBlocksAux a b fuel alo
            (findLongestMatch a b alo ahi blo bhi).1 blo
            (findLongestMatch a b alo ahi blo bhi).2.1) ++
          ((List.range (findLongestMatch a b alo ahi blo bhi).2.2).map
            (fun t => ((findLongestMatch a b alo ahi blo bhi).1 + t,
              (findLongestMatch a b alo ahi blo bhi).2.1 + t)) ++
          anchoredPairs (matchingBlocksAux a b fuel
            ((findLongestMatch a b alo ahi blo bhi).1 +
              (findLongestMatch a b alo ahi blo bhi).2.2) ahi
            ((findLongestMatch a b alo ahi blo bhi).2.1 +
              (findLongestMatch a b alo ahi blo bhi).2.2) bhi)) := by
        simp [anchoredPairs]
      rw [hdist]
      apply GoodChain.append (ih alo _ blo _ (by omega) (by omega))
      apply GoodChain.append (goodChain_block a b _ _ _ hm)
      exact ih _ ahi _ bhi hik hjk
    · have hunfold : matchingBlocksAux a b (fuel + 1) alo ahi blo bhi = [] := by
        simp only [matchingBlocksAux, hk, if_false]
      rw [hunfold]
      exact .nil _ _ h1 h2

theorem goodChain_matchingBlocks (a b : List Nat) :
    GoodChain a b (0, 0) (anchoredPairs (matchingBlocks a b))
      (a.length, b.length) :=
  goodChain_matchingBlocksAux a b (a.length + 1) 0 a.length 0 b.length
    (Nat.zero_le _) (Nat.zero_le _)

theorem GoodChain.mem_facts {a b : List Nat} {lo hi : Nat × Nat}
    {P : List (Nat × Nat)} (h : GoodChain a b lo P hi) :
    ∀ q ∈ P, lo.1 ≤ q.1 ∧ lo.2 ≤ q.2 ∧ a[q.1]? = b[q.2]? ∧ (a[q.1]?).isSome := by
  induction h with
  | nil => simp
  | cons lo' i j P' hi' hi1 hj1 hm hs hrest ih =>
    intro q hq
    rcases List.mem_cons.mp hq with h1 | h2
    · subst h1
      exact ⟨hi1, hj1, hm, hs⟩
    · have hfacts := ih q h2
      exact ⟨by omega, by omega, hfacts.2.2.1, hfacts.2.2.2⟩

theorem GoodChain.lookup {a b : List Nat} {lo hi : Nat × Nat}
    {P : List (Nat × Nat)} (h : GoodChain a b lo P hi)
    {bi li : Nat} (hmem : (bi, li) ∈ P) : lookupAnchor P bi = li := by
  induction h with
  | nil => simp at hmem
  | cons lo' i j P' hi' hi1 hj1 hm hs hrest ih =>
    by_cases hbi : bi = i
    · subst hbi
      have hli : li = j := by
        rcases List.mem_cons.mp hmem with h1 | h2
        · exact (Prod.mk.injEq _ _ _ _ ▸ h1).2
        · have := hrest.mem_facts _ h2
          simp only at this
          omega
      subst hli
      unfold lookupAnchor
      rw [List.find?_cons_of_pos _ (by simp)]
    · have hmem' : (bi, li) ∈ P' := by
        rcases List.mem_cons.mp hmem with h1 | h2
        · exact absurd (Prod.mk.injEq _ _ _ _ ▸ h1).1 hbi
        · exact h2
      have := ih hmem'
      unfold lookupAnchor at *
      rw [List.find?_cons_of_neg _ (by simpa using Ne.symm hbi)]
      exact this

/-! ## Gap classification and coalescing lemmas -/

/-- Python `seg[1]`: the content of a clean segment, the local alternative
of a conflict segment (as used by the merged-track collection loops). -/
def segContent : Segment → List Nat
  | .clean xs => xs
  | .conflict lts _ => lts

/-- Concatenated `seg[1]` content of a segment list. -/
def flattenSegs (l : List Segment) : List Nat :=
  l.flatMap segContent

/-- No two adjacent segments are both clean. -/
def noAdjacentClean (l : List Segment) : Prop :=
  List.Chain' (fun s t => ¬(isCleanSeg s = true ∧ isCleanSeg t = true)) l

theorem classifyGap_self (bg g : List Nat) :
    classifyGap bg g g = ((if g.isEmpty then [] else [.clean g]), false) := by
  unfold classifyGap
  by_cases h : g = bg
  · rw [if_pos h, if_pos h, ← h]
  · rw [if_neg h, if_neg h, if_pos rfl]

theorem classifyGap_conflict_iff (bg lg rg : List Nat) :
    (classifyGap bg lg rg).2 = (classifyGap bg lg rg).1.any isConflictSeg := by
  unfold classifyGap
  split_ifs <;> simp [isConflictSeg]

theorem classifyGap_clean_nonempty (bg lg rg : List Nat) :
    ∀ s ∈ (classifyGap bg lg rg).1, ∀ xs, s = Segment.clean xs → xs ≠ [] := by
  unfold classifyGap
  split_ifs with h1 h2 h3 h4 h5 h6 h7 h8 h9 <;>
    intro s hs xs hxs <;>
    simp_all [List.isEmpty_iff]

theorem flattenSegs_ifEmpty (g : List Nat) :
    flattenSegs (if g.isEmpty then [] else [.clean g]) = g := by
  by_cases h : g.isEmpty
  · rw [if_pos h]
    rw [List.isEmpty_iff] at h
    simp [flattenSegs, h]
  · rw [if_neg h]
    simp [flattenSegs, segContent]

theorem ifEmpty_all_clean (g : List Nat) :
    ∀ s ∈ (if g.isEmpty then ([] : List Segment) else [.clean g]), isCleanSeg s = true := by
  by_cases h : g.isEmpty <;> simp [h, isCleanSeg]

theorem coalesce_any_conflict (l : List Segment) :
    (coalesce l).any isConflictSeg = l.any isConflictSeg := by
  induction l with
  | nil => rfl
  | cons s rest ih =>
    show (coalesceCons s (coalesce rest)).any isConflictSeg = _
    cases s with
    | conflict a b =>
      have : coalesceCons (Segment.conflict a b) (coalesce rest)
          = Segment.conflict a b :: coalesce rest := by
        cases hco : coalesce rest with
        | nil => rfl
        | cons s' r => cases s' <;> rfl
      rw [this]
      simp [List.any_cons, isConflictSeg, ih]
    | clean xs =>
      cases hco : coalesce rest with
      | nil =>
        have hih := ih
        rw [hco] at hih
        show (Segment.clean xs :: ([] : List Segment)).any isConflictSeg = _
        simp only [List.any_cons, List.any_nil, isConflictSeg] at hih ⊢
        simp [← hih]
      | cons s' r =>
        have hih := ih
        rw [hco] at hih
        cases s' with
        | clean ys =>
          show (Segment.clean (xs ++ ys) :: r).any isConflictSeg = _
          simp only [List.any_cons, isConflictSeg] at hih ⊢
          simpa using hih
        | conflict a b =>
          show (Segment.clean xs :: Segment.conflict a b :: r).any isConflictSeg = _
          simp only [List.any_cons, isConflictSeg] at hih ⊢
          simpa using hih

theorem coalesce_flatten (l : List Segment) :
    flattenSegs (coalesce l) = flattenSegs l := by
  induction l with
  | nil => rfl
  | cons s rest ih =>
    show flattenSegs (coalesceCons s (coalesce rest)) = _
    cases s with
    | conflict a b =>
      have : coalesceCons (Segment.conflict a b) (coalesce rest)
          = Segment.conflict a b :: coalesce rest := by
        cases hco : coalesce rest with
        | nil => rfl
        | cons s' r => cases s' <;> rfl
      rw [this]
      simp only [flattenSegs, List.flatMap_cons] at ih ⊢
      rw [ih]
    | clean xs =>
      cases hco : coalesce rest with
      | nil =>
        have hih := ih
        rw [hco] at hih
        show flattenSegs [Segment.clean xs] = _
        simp only [flattenSegs, List.flatMap_cons, List.flatMap_nil] at hih ⊢
        rw [← hih]
      | cons s' r =>
        have hih := ih
        rw [hco] at hih
        cases s' with
        | clean ys =>
          show flattenSegs (Segment.clean (xs ++ ys) :: r) = _
          simp only [flattenSegs, List.flatMap_cons, segContent] at hih ⊢
          rw [← hih]
          simp
        | conflict a b =>
          show flattenSegs (Segment.clean xs :: Segment.conflict a b :: r) = _
          simp only [flattenSegs, List.flatMap_cons, segContent] at hih ⊢
          rw [← hih]

theorem coalesce_mem_clean (l : List Segment) :
    ∀ s ∈ coalesce l, isCleanSeg s = true →
      ∃ xs ys, s = Segment.clean (xs ++ ys) ∧ Segment.clean xs ∈ l := by
  induction l with
  | nil => simp [coalesce]
  | cons t rest ih =>
    intro s hs hclean
    rw [show coalesce (t :: rest) = coalesceCons t (coalesce rest) from rfl] at hs
    cases t with
    | conflict a b =>
      have heq : coalesceCons (Segment.conflict a b) (coalesce rest)
          = Segment.conflict a b :: coalesce rest := by
        cases hco : coalesce rest with
        | nil => rfl
        | cons s' r => cases s' <;> rfl
      rw [heq] at hs
      rcases List.mem_cons.mp hs with h1 | h2
      · subst h1; simp [isCleanSeg] at hclean
      · obtain ⟨xs, ys, hxy, hmem⟩ := ih s h2 hclean
        exact ⟨xs, ys, hxy, by simp [hmem]⟩
    | clean zs =>
      cases hco : coalesce rest with
      | nil =>
        rw [hco] at hs
        rcases List.mem_cons.mp hs with h1 | h2
        · subst h1
          exact ⟨zs, [], by simp, by simp⟩
        · simp at h2
      | cons s' r =>
        rw [hco] at hs
        cases s' with
        | clean ys =>
          rcases List.mem_cons.mp hs with h1 | h2
          · subst h1
            exact ⟨zs, ys, rfl, by simp⟩
          · obtain ⟨xs2, ys2, hxy, hmem⟩ := ih s (by rw [hco]; exact List.mem_cons_of_mem _ h2) hclean
            exact ⟨xs2, ys2, hxy, by simp [hmem]⟩
        | conflict a b =>
          rcases List.mem_cons.mp hs with h1 | h2
          · subst h1
            exact ⟨zs, [], by simp, by simp⟩
          · obtain ⟨xs2, ys2, hxy, hmem⟩ := ih s (by rw [hco]; exact h2) hclean
            exact ⟨xs2, ys2, hxy, by simp [hmem]⟩

theorem coalesce_all_clean (l : List Segment) (h : ∀ s ∈ l, isCleanSeg s = true) :
    ∀ s ∈ coalesce l, isCleanSeg s = true := by
  induction l with
  | nil => simp [coalesce]
  | cons t rest ih =>
    intro s hs
    rw [show coalesce (t :: rest) = coalesceCons t (coalesce rest) from rfl] at hs
    cases t with
    | conflict a b =>
      have hcf := h (Segment.conflict a b) (by simp)
      simp [isCleanSeg] at hcf
    | clean xs =>
      have hrest := ih (fun u hu => h u (by simp [hu]))
      cases hco : coalesce rest with
      | nil =>
        rw [hco] at hs
        rcases List.mem_cons.mp hs with h1 | h2
        · subst h1; rfl
        · simp at h2
      | cons s' r =>
        rw [hco] at hs
        cases s' with
        | clean ys =>
          rcases List.mem_cons.mp hs with h1 | h2
          · subst h1; rfl
          · exact hrest s (by rw [hco]; exact List.mem_cons_of_mem _ h2)
        | conflict a b =>
          rcases List.mem_cons.mp hs with h1 | h2
          · subst h1; rfl
          · exact hrest s (by rw [hco]; exact h2)

theorem coalesce_chain (l : List Segment) : noAdjacentClean (coalesce l) := by
  induction l with
  | nil => exact trivial
  | cons s rest ih =>
    show noAdjacentClean (coalesceCons s (coalesce rest))
    cases s with
    | conflict a b =>
      have heq : coalesceCons (Segment.conflict a b) (coalesce rest)
          = Segment.conflict a b :: coalesce rest := by
        cases hco : coalesce rest with
        | nil => rfl
        | cons s' r => cases s' <;> rfl
      rw [heq]
      cases hco : coalesce rest with
      | nil => exact List.chain'_singleton _
      | cons s' r =>
        rw [hco] at ih
        exact List.Chain'.cons (by simp [isCleanSeg]) ih
    | clean xs =>
      cases hco : coalesce rest with
      | nil => exact List.chain'_singleton _
      | cons s' r =>
        rw [hco] at ih
        cases s' with
        | clean ys =>
          show noAdjacentClean (Segment.clean (xs ++ ys) :: r)
          cases r with
          | nil => exact List.chain'_singleton _
          | cons t r' =>
            unfold noAdjacentClean at ih ⊢
            rw [List.chain'_cons] at ih ⊢
            exact ⟨by simpa [isCleanSeg] using ih.1, ih.2⟩
        | conflict a b =>
          show noAdjacentClean (Segment.clean xs :: Segment.conflict a b :: r)
          exact List.Chain'.cons (by simp [isCleanSeg]) ih

/-! ## Merge-loop invariants -/

theorem mergeFold_inv (base loc rem : List Nat) (b2l b2r : List (Nat × Nat)) :
    ∀ (idx : List Nat) (acc : MergeAcc),
      acc.conflicts = acc.segs.any isConflictSeg →
      (∀ s ∈ acc.segs, ∀ xs, s = Segment.clean xs → xs ≠ []) →
      (idx.foldl (mergeStep base loc rem b2l b2r) acc).conflicts
        = (idx.foldl (mergeStep base loc rem b2l b2r) acc).segs.any isConflictSeg ∧
      (∀ s ∈ (idx.foldl (mergeStep base loc rem b2l b2r) acc).segs,
        ∀ xs, s = Segment.clean xs → xs ≠ []) := by
  intro idx
  induction idx with
  | nil =>
    intro acc h1 h2
    exact ⟨h1, h2⟩
  | cons bi idx ih =>
    intro acc h1 h2
    rw [List.foldl_cons]
    apply ih
    · show (mergeStep base loc rem b2l b2r acc bi).conflicts = _
      simp only [mergeStep]
      rw [List.any_append, List.any_append, h1, classifyGap_conflict_iff]
      simp [isConflictSeg, Bool.or_assoc]
    · intro s hs xs hxs
      simp only [mergeStep] at hs
      rcases List.mem_append.mp hs with hs1 | hs2
      · rcases List.mem_append.mp hs1 with hs3 | hs4
        · exact h2 s hs3 xs hxs
        · exact classifyGap_clean_nonempty _ _ _ s hs4 xs hxs
      · have : s = Segment.clean [base.getD bi 0] := by simpa using hs2
        rw [this] at hxs
        have : xs = [base.getD bi 0] := by
          injection hxs.symm
        simp [this]

theorem mergeTrackids_conflict_any (base loc rem : List Nat) :
    (mergeTrackids base loc rem).2 = (mergeTrackids base loc rem).1.any isConflictSeg := by
  unfold mergeTrackids
  simp only
  rw [coalesce_any_conflict, List.any_append]
  have hinv := mergeFold_inv base loc rem
    (anchoredPairs (matchingBlocks base loc)) (anchoredPairs (matchingBlocks base rem))
    (((anchoredPairs (matchingBlocks base loc)).map Prod.fst).filter
      (fun bi => ((anchoredPairs (matchingBlocks base rem)).map Prod.fst).contains bi))
    ⟨0, 0, 0, [], false⟩ (by simp) (by simp)
  rw [hinv.1, classifyGap_conflict_iff]

theorem mergeTrackids_clean_nonempty (base loc rem : List Nat) :
    ∀ s ∈ (mergeTrackids base loc rem).1, ∀ xs, s = Segment.clean xs → xs ≠ [] := by
  unfold mergeTrackids
  simp only
  intro s hs xs hxs
  have hclean : isCleanSeg s = true := by rw [hxs]; rfl
  obtain ⟨xs1, ys1, hxy, hmem⟩ := coalesce_mem_clean _ s hs hclean
  have hinv := mergeFold_inv base loc rem
    (anchoredPairs (matchingBlocks base loc)) (anchoredPairs (matchingBlocks base rem))
    (((anchoredPairs (matchingBlocks base loc)).map Prod.fst).filter
      (fun bi => ((anchoredPairs (matchingBlocks base rem)).map Prod.fst).contains bi))
    ⟨0, 0, 0, [], false⟩ (by simp) (by simp)
  have hxs1 : xs1 ≠ [] := by
    rcases List.mem_append.mp hmem with hm1 | hm2
    · exact hinv.2 _ hm1 xs1 rfl
    · exact classifyGap_clean_nonempty _ _ _ _ hm2 xs1 rfl
  have : xs = xs1 ++ ys1 := by
    rw [hxy] at hxs
    injection hxs.symm
  rw [this]
  simp [hxs1]

theorem mergeTrackids_chain (base loc rem : List Nat) :
    noAdjacentClean (mergeTrackids base loc rem).1 := by
  unfold mergeTrackids
  simp only
  exact coalesce_chain _

/-- Claim C10: for every input triple, the merge's conflict flag is true
exactly when some returned segment is a conflict segment; every returned
clean segment has non-empty content; and no two adjacent returned segments
are both clean. -/
theorem C10_merge_output_invariants (base loc rem : List Nat) :
    ((mergeTrackids base loc rem).2 = true ↔
      ∃ s ∈ (mergeTrackids base loc rem).1, isConflictSeg s = true) ∧
    (∀ s ∈ (mergeTrackids base loc rem).1, ∀ xs, s = Segment.clean xs → xs ≠ []) ∧
    noAdjacentClean (mergeTrackids base loc rem).1 := by
  refine ⟨?_, mergeTrackids_clean_nonempty base loc rem, mergeTrackids_chain base loc rem⟩
  rw [mergeTrackids_conflict_any]
  exact List.any_eq_true

/-! ## Merging a sequence with itself -/

theorem getD_eq_of_getElem?_eq {a b : List Nat} {i j : Nat}
    (h : a[i]? = b[j]?) (hs : (a[i]?).isSome = true) :
    a.getD i 0 = b.getD j 0 ∧ j < b.length := by
  constructor
  · rw [List.getD_eq_getElem?_getD, List.getD_eq_getElem?_getD, h]
  · rw [h, Option.isSome_iff_exists] at hs
    obtain ⟨x, hx⟩ := hs
    exact (List.getElem?_eq_some_iff.mp hx).1

theorem take_pySlice (l : List Nat) (p q : Nat) (h : p ≤ q) :
    l.take p ++ pySlice l p q = l.take q := by
  conv_rhs => rw [show q = p + (q - p) from by omega, List.take_add]
  rfl

theorem take_snoc_getD (l : List Nat) (q : Nat) (h : q < l.length) :
    l.take q ++ [l.getD q 0] = l.take (q + 1) := by
  have hq : l[q]? = some l[q] := List.getElem?_eq_some_iff.mpr ⟨h, rfl⟩
  rw [List.take_succ, hq, List.getD_eq_getElem?_getD, hq]
  rfl

theorem mergeSelf_fold (base loc : List Nat) (P : List (Nat × Nat))
    (hP : GoodChain base loc (0, 0) P (base.length, loc.length)) :
    ∀ (Q : List (Nat × Nat)) (acc : MergeAcc),
      GoodChain base loc (acc.basePos, acc.localPos) Q (base.length, loc.length) →
      (∀ q ∈ Q, q ∈ P) →
      acc.remotePos = acc.localPos →
      acc.conflicts = false →
      (∀ s ∈ acc.segs, isCleanSeg s = true) →
      flattenSegs acc.segs = loc.take acc.localPos →
      ((Q.map Prod.fst).foldl (mergeStep base loc loc P P) acc).conflicts = false ∧
      (∀ s ∈ ((Q.map Prod.fst).foldl (mergeStep base loc loc P P) acc).segs,
        isCleanSeg s = true) ∧
      flattenSegs ((Q.map Prod.fst).foldl (mergeStep base loc loc P P) acc).segs
        = loc.take ((Q.map Prod.fst).foldl (mergeStep base loc loc P P) acc).localPos ∧
      ((Q.map Prod.fst).foldl (mergeStep base loc loc P P) acc).remotePos
        = ((Q.map Prod.fst).foldl (mergeStep base loc loc P P) acc).localPos := by
  intro Q
  induction Q with
  | nil =>
    intro acc _ _ h3 h4 h5 h6
    exact ⟨h4, h5, h6, h3⟩
  | cons q Q ih =>
    intro acc hchain hsub hrl hcf hclean hflat
    obtain ⟨bi, li⟩ := q
    have hmemP : (bi, li) ∈ P := hsub (bi, li) (by simp)
    have hlook : lookupAnchor P bi = li := hP.lookup hmemP
    cases hchain with
    | cons lo i j PP hi hle1 hle2 hm hsm hrest =>
      have hbl := getD_eq_of_getElem?_eq hm hsm
      have hstep : mergeStep base loc loc P P acc bi = MergeAcc.mk (bi + 1) (li + 1) (li + 1)
          (acc.segs ++ (if (pySlice loc acc.localPos li).isEmpty then []
            else [Segment.clean (pySlice loc acc.localPos li)])
            ++ [Segment.clean [base.getD bi 0]]) acc.conflicts := by
        simp only [mergeStep, hlook, hrl, classifyGap_self]
        simp
      rw [show ((⟨bi, li⟩ :: Q : List (Nat × Nat)).map Prod.fst)
        = bi :: Q.map Prod.fst from rfl, List.foldl_cons, hstep]
      apply ih
      · exact hrest
      · exact fun q hq => hsub q (by simp [hq])
      · rfl
      · exact hcf
      · intro s hs
        rcases List.mem_append.mp hs with hs1 | hs2
        · rcases List.mem_append.mp hs1 with hs3 | hs4
          · exact hclean s hs3
          · exact ifEmpty_all_clean _ s hs4
        · have hseq : s = Segment.clean [base.getD bi 0] := by simpa using hs2
          rw [hseq]; rfl
      · show flattenSegs _ = loc.take (li + 1)
        simp only [flattenSegs, List.flatMap_append]
        rw [show (if (pySlice loc acc.localPos li).isEmpty then ([] : List Segment)
            else [Segment.clean (pySlice loc acc.localPos li)]).flatMap segContent
          = pySlice loc acc.localPos li from flattenSegs_ifEmpty _]
        rw [show acc.segs.flatMap segContent = flattenSegs acc.segs from rfl, hflat]
        rw [show [Segment.clean [base.getD bi 0]].flatMap segContent
          = [base.getD bi 0] from rfl]
        rw [hbl.1, take_pySlice loc acc.localPos li hle2,
          take_snoc_getD loc li hbl.2]

theorem mergeTrackids_self_core (base loc : List Nat) :
    (mergeTrackids base loc loc).2 = false ∧
    (∀ s ∈ (mergeTrackids base loc loc).1, isCleanSeg s = true) ∧
    flattenSegs (mergeTrackids base loc loc).1 = loc := by
  have hP := goodChain_matchingBlocks base loc
  unfold mergeTrackids
  simp only
  set P := anchoredPairs (matchingBlocks base loc) with hPdef
  have hsync : (P.map Prod.fst).filter (fun bi => (P.map Prod.fst).contains bi)
      = P.map Prod.fst := by
    apply List.filter_eq_self.mpr
    intro a ha
    simpa using ha
  rw [hsync]
  obtain ⟨hcf, hclean, hflat, hrl⟩ := mergeSelf_fold base loc P hP P
    ⟨0, 0, 0, [], false⟩ hP (fun q hq => hq) rfl rfl (by simp) (by simp [flattenSegs])
  rw [hrl, classifyGap_self]
  refine ⟨?_, ?_, ?_⟩
  · simp [hcf]
  · intro s hs
    apply coalesce_all_clean _ ?_ s hs
    intro u hu
    rcases List.mem_append.mp hu with h1 | h2
    · exact hclean u h1
    · exact ifEmpty_all_clean _ u h2
  · rw [coalesce_flatten]
    simp only [flattenSegs, List.flatMap_append]
    rw [show (if (loc.drop ((P.map Prod.fst).foldl (mergeStep base loc loc P P)
          ⟨0, 0, 0, [], false⟩).localPos).isEmpty then ([] : List Segment)
        else [Segment.clean (loc.drop ((P.map Prod.fst).foldl (mergeStep base loc loc P P)
          ⟨0, 0, 0, [], false⟩).localPos)]).flatMap segContent
      = loc.drop ((P.map Prod.fst).foldl (mergeStep base loc loc P P)
          ⟨0, 0, 0, [], false⟩).localPos from flattenSegs_ifEmpty _]
    rw [show ((P.map Prod.fst).foldl (mergeStep base loc loc P P)
        ⟨0, 0, 0, [], false⟩).segs.flatMap segContent
      = flattenSegs ((P.map Prod.fst).foldl (mergeStep base loc loc P P)
        ⟨0, 0, 0, [], false⟩).segs from rfl, hflat]
    exact List.take_append_drop _ _

/-- Claim C5: for every base sequence, merging equal local and remote
sequences returns clean-only segments whose concatenated content equals the
common sequence, with the conflict flag false. -/
theorem C5_convergence (base loc : List Nat) :
    (mergeTrackids base loc loc).2 = false ∧
    (∀ s ∈ (mergeTrackids base loc loc).1, isCleanSeg s = true) ∧
    flattenSegs (mergeTrackids base loc loc).1 = loc :=
  mergeTrackids_self_core base loc

/-- Claim C7 (amended): merging a base with itself on both sides yields no
conflict and a single clean segment carrying the base when the base is
non-empty; for the empty base the code returns an empty segment list, not
one clean segment with empty content. -/
theorem C7_noop_merge_amended (base : List Nat) :
    mergeTrackids base base base
      = ((if base.isEmpty then [] else [Segment.clean base]), false) := by
  obtain ⟨hcf, hclean, hflat⟩ := mergeTrackids_self_core base base
  have hchain := mergeTrackids_chain base base base
  have hne := mergeTrackids_clean_nonempty base base base
  rw [Prod.ext_iff]
  refine ⟨?_, hcf⟩
  rcases hsegs : (mergeTrackids base base base).1 with _ | ⟨s, rest⟩
  · rw [hsegs] at hflat
    simp only [flattenSegs, List.flatMap_nil] at hflat
    rw [← hflat]
    simp
  · rcases rest with _ | ⟨t, rest2⟩
    · have hsc := hclean s (by rw [hsegs]; simp)
      cases s with
      | conflict a b => simp [isCleanSeg] at hsc
      | clean xs =>
        rw [hsegs] at hflat
        simp only [flattenSegs, List.flatMap_cons, List.flatMap_nil,
          segContent, List.append_nil] at hflat
        have hxs : xs ≠ [] := hne (Segment.clean xs) (by rw [hsegs]; simp) xs rfl
        have hbase : ¬base.isEmpty = true := by
          rw [List.isEmpty_iff, ← hflat]
          exact hxs
        rw [if_neg hbase, hflat]
    · exfalso
      have h1 := hclean s (by rw [hsegs]; simp)
      have h2 := hclean t (by rw [hsegs]; simp)
      have hch := hchain
      rw [hsegs] at hch
      unfold noAdjacentClean at hch
      rw [List.chain'_cons] at hch
      exact hch.1 ⟨h1, h2⟩

/-- Claim C7 counterexample: at the empty base the merge returns an empty
segment list, not the single clean segment with empty content that the
claim prescribes. -/
theorem C7_noop_merge_counterexample :
    mergeTrackids [] [] [] = ([], false)
    ∧ (([], false) : List Segment × Bool) ≠ ([Segment.clean []], false) :=
  ⟨by decide, by decide⟩

/-- Claim C6: with an empty base gap, both sides changed and differing
non-empty gap contents, the gap classifier emits the local content followed
by the remote content as one clean segment and reports no conflict; and
concretely the merge of local [1] and remote [2] over the empty base is
([clean [1, 2]], false). -/
theorem C6_empty_base_insertion :
    (∀ lg rg : List Nat, lg ≠ [] → rg ≠ [] → lg ≠ rg →
      classifyGap [] lg rg = ([Segment.clean (lg ++ rg)], false)) ∧
    mergeTrackids [] [1] [2] = ([Segment.clean [1, 2]], false) := by
  constructor
  · intro lg rg h1 h2 h3
    unfold classifyGap
    rw [if_neg h1, if_neg h2, if_neg h3]
    simp
  · decide

/-- Witness for C6: the gap classifier applied at local gap [1] and remote
gap [2] over the empty base gap. -/
theorem C6_empty_base_insertion_witness :
    classifyGap [] [1] [2] = ([Segment.clean [1, 2]], false) :=
  C6_empty_base_insertion.1 [1] [2] (by decide) (by decide) (by decide)

/-! ## Deletion propagation (`_handle_download_deletions`) -/

/-- One sync-state entry value: the linked remote playlist ID (the `'id'`
key) and the last-synced track-ID list (the `'tracks'` key). -/
structure PlaylistState where
  pid : Nat
  tracks : List Nat
deriving DecidableEq, Repr

/-- `_local_playlist_changed` (source lines 703-708): the body returns
False unconditionally — "For simplicity, we trust the state and don't
re-parse here" — although its docstring and its call site ("Only delete if
local is unchanged since last sync") describe a content comparison. -/
def localPlaylistChanged (plpath : Str) (plstate : PlaylistState) : Bool :=
  false

/-- Result of `_handle_download_deletions`: the local files unlinked and
the state left after the `keys_to_remove` deletions. -/
structure DownloadDeletionResult where
  deleted : List Str
  newState : List (Str × PlaylistState)
deriving DecidableEq, Repr

/-- `_handle_download_deletions`: for every state entry whose remote ID no
longer exists, clean up the state entry if the local file is already gone,
otherwise delete the local file unless `_local_playlist_changed` reports a
local modification or pretend mode is on.  `localFiles` maps each existing
local playlist file to its current track-ID content; the function consults
only the key set (`is_file`), the content is carried to state the claim. -/
def handleDownloadDeletions (state : List (Str × PlaylistState)) (remoteIds : List Nat)
    (localFiles : List (Str × List Nat)) (pretend : Bool) : DownloadDeletionResult :=
  let step := fun (acc : List Str × List Str) (kv : Str × PlaylistState) =>
    if kv.2.pid ∈ remoteIds then acc
    else if (localFiles.find? (fun f => f.1 = kv.1)).isNone then
      (acc.1 ++ [kv.1], acc.2)
    else if localPlaylistChanged kv.1 kv.2 then acc
    else if pretend then acc
    else (acc.1 ++ [kv.1], acc.2 ++ [kv.1])
  let r := state.foldl step ([], [])
  ⟨r.2, state.filter (fun kv => !(kv.1 ∈ r.1))⟩

/-! ## State loading (`_load_state`) -/

/-- `_load_state`: the read-and-parse of the state file is a collaborator
boundary (the `json` module); its outcome is abstracted as an input —
`none` when the state path is not a file, `some (Except.ok s)` for a
successful parse and `some (Except.error e)` for a raised parse exception.
The Boolean in the result records whether the error branch logged. -/
def loadState (stateFile : Option (Except Str (List (Str × PlaylistState)))) :
    Except Str (List (Str × PlaylistState)) × Bool :=
  match stateFile with
  | some (Except.ok s) => (Except.ok s, false)
  | some (Except.error _) => (Except.ok [], true)
  | none => (Except.ok [], false)

/-! ## State-path determination and pretend mode (`_get_state_path`, `sync`) -/

/-- File-system effects of the sync state machinery. -/
inductive FsAction where
  | mkdirParents : MPath → FsAction
  | moveFile : MPath → MPath → FsAction
  | saveStateFile : MPath → FsAction
deriving DecidableEq, Repr

/-- `_get_state_path`: an explicitly configured path wins; otherwise the
default location, after a one-time migration (mkdir of the parent and a
`shutil.move`) when the legacy state file exists and the default location
does not.  Returned are the chosen path and the file-system actions
performed. -/
def getStatePath (configured : Option MPath) (oldPath defaultPath : MPath)
    (oldIsFile defaultIsFile : Bool) : MPath × List FsAction :=
  match configured with
  | some p => (p, [])
  | none =>
    if oldIsFile && !defaultIsFile then
      (defaultPath, [FsAction.mkdirParents defaultPath,
        FsAction.moveFile oldPath defaultPath])
    else (defaultPath, [])

/-- Lines 52-54 of `sync`: the state path is determined — running the
migration inside `_get_state_path` — before any branch consults `pretend`;
the `pretend` flag is not passed down. -/
def syncStateSetup (pretend : Bool) (configured : Option MPath)
    (oldPath defaultPath : MPath) (oldIsFile defaultIsFile : Bool) :
    MPath × List FsAction :=
  getStatePath configured oldPath defaultPath oldIsFile defaultIsFile

/-- Lines 81-83 of `sync`: the state file is saved only when `pretend` is
off. -/
def syncSaveState (pretend : Bool) (statePath : MPath) : List FsAction :=
  if pretend then [] else [FsAction.saveStateFile statePath]

/-! ## Linked-playlist download (`_download_linked_playlist`) -/

/-- Externally visible mutations of `_download_linked_playlist`. -/
inductive SyncAction where
  | writeFile : List Str → SyncAction
  | writeConflicted : List Str → SyncAction
  | setTracks : Nat → List Nat → SyncAction
deriving DecidableEq, Repr

/-- Result of `_download_linked_playlist`: the actions performed, in
order, and the new `tracks` value stored in the playlist's state entry
(`none` when the entry is left unchanged). -/
structure DLResult where
  actions : List SyncAction
  newStateTracks : Option (List Nat)
deriving DecidableEq, Repr

/-- The reverse lookup `path_to_trackid` built from `trackid_to_path` by a
dict comprehension: on duplicate paths the last insertion wins. -/
def revLookupPath (m : List (Nat × MPath)) (p : MPath) : Option Nat :=
  ((m.filter (fun kv => kv.2 = p)).getLast?).map (fun kv => kv.1)

/-- `_resolve_trackids_to_paths`: resolve remote track IDs to local paths,
skipping and counting unresolvable IDs. -/
def resolveTrackidsToPaths (tids : List Nat) (m : List (Nat × MPath)) :
    List MPath × Nat :=
  tids.foldl (fun acc tid =>
    match lookupTid m tid with
    | none => (acc.1, acc.2 + 1)
    | some p => (acc.1 ++ [p], acc.2)) ([], 0)

/-- `_download_linked_playlist` (source lines 491-612) as a pure function.
`ibPlaylist` is the `ib.playlist(playlistid)` reply (`none`: no playlist;
`some none`: a reply without a `'tracks'` key; `some (some ts)`: the remote
track list); `fileLines` is the local M3U line content when the playlist
file exists.  Unresolvable local references are dropped by the
`filterMap`, mirroring the source's filtering of `None` lookups; the
unresolved ones are logged only. -/
def downloadLinkedPlaylist (playlistid : Nat) (lastsync : List Nat)
    (ibPlaylist : Option (Option (List Nat))) (fileLines : Option (List Str))
    (trackBase : MPath) (tidToPath : List (Nat × MPath)) (pretend : Bool) : DLResult :=
  match ibPlaylist with
  | none => ⟨[], none⟩
  | some none => ⟨[], none⟩
  | some (some remote) =>
    if remote = lastsync then ⟨[], none⟩
    else
      let fromRemote : DLResult :=
        let rp := resolveTrackidsToPaths remote tidToPath
        if rp.1.isEmpty then ⟨[], none⟩
        else if pretend then ⟨[], none⟩
        else ⟨[SyncAction.writeFile (writeM3u rp.1 trackBase)], some remote⟩
      match fileLines with
      | none => fromRemote
      | some lines =>
        let localPaths := parseM3u lines trackBase
        let localTids := localPaths.filterMap (fun p => revLookupPath tidToPath p)
        if localTids ≠ lastsync then
          if localTids = remote then
            (if pretend then ⟨[], none⟩ else ⟨[], some remote⟩)
          else
            let mg := mergeTrackids lastsync localTids remote
            if mg.2 then
              (if pretend then ⟨[], none⟩
                else ⟨[SyncAction.writeConflicted
                  (writeConflictedM3u mg.1 tidToPath trackBase)], some remote⟩)
            else
              let merged := flattenSegs mg.1
              if pretend then ⟨[], none⟩
              else
                let rp := resolveTrackidsToPaths merged tidToPath
                ⟨[SyncAction.writeFile (writeM3u rp.1 trackBase),
                  SyncAction.setTracks playlistid merged], some merged⟩
        else fromRemote

/-- Claim C1: at this input the remote ID 42 has vanished and the local
file's current track sequence [100, 200] differs from the state entry's
tracks [100]; `_local_playlist_changed` nevertheless reports no change, so
`_handle_download_deletions` deletes the local playlist file and drops the
state entry. -/
theorem C1_deletion_guard_failing :
    handleDownloadDeletions [("pl.m3u".toList, ⟨42, [100]⟩)] []
        [("pl.m3u".toList, [100, 200])] false
      = ⟨["pl.m3u".toList], []⟩
    ∧ ([100, 200] : List Nat) ≠ [100] :=
  ⟨by decide, by decide⟩

/-- Claim C9: loading the persisted sync state never propagates an
exception: it returns the parsed mapping on success and the empty mapping,
with the error logged, on any parse failure. -/
theorem C9_load_state (f : Option (Except Str (List (Str × PlaylistState)))) :
    (∃ m, (loadState f).1 = Except.ok m) ∧
    (∀ s, f = some (Except.ok s) → loadState f = (Except.ok s, false)) ∧
    (∀ e, f = some (Except.error e) → loadState f = (Except.ok [], true)) := by
  refine ⟨?_, ?_, ?_⟩
  · rcases f with _ | pe
    · exact ⟨[], rfl⟩
    · rcases pe with e | s
      · exact ⟨[], rfl⟩
      · exact ⟨s, rfl⟩
  · intro s h
    subst h
    rfl
  · intro e h
    subst h
    rfl

/-- Witness for C9: a concrete corrupted state file degrades to the empty
mapping with the error logged. -/
theorem C9_load_state_witness :
    loadState (some (Except.error ['x'])) = (Except.ok [], true) :=
  (C9_load_state (some (Except.error ['x']))).2.2 ['x'] rfl

theorem downloadLinkedPlaylist_pretend (playlistid : Nat) (lastsync : List Nat)
    (ibPlaylist : Option (Option (List Nat))) (fileLines : Option (List Str))
    (trackBase : MPath) (tidToPath : List (Nat × MPath)) :
    downloadLinkedPlaylist playlistid lastsync ibPlaylist fileLines trackBase
      tidToPath true = ⟨[], none⟩ := by
  unfold downloadLinkedPlaylist
  rcases ibPlaylist with _ | op
  · rfl
  · rcases op with _ | remote
    · rfl
    · rcases fileLines with _ | lines <;> simp only <;> split_ifs <;> rfl

/-- Claim C4 counterexample: with no configured state path, the legacy
state file present and the default location absent, a pretend-mode sync
still mutates the file system used for sync state: the state-path setup
performs the migration mkdir and move before any pretend check. -/
theorem C4_pretend_counterexample :
    (syncStateSetup true none ⟨true, [['o']]⟩ ⟨true, [['n']]⟩ true false).2
      = [FsAction.mkdirParents ⟨true, [['n']]⟩,
        FsAction.moveFile ⟨true, [['o']]⟩ ⟨true, [['n']]⟩]
    ∧ ([FsAction.mkdirParents (⟨true, [['n']]⟩ : MPath),
        FsAction.moveFile ⟨true, [['o']]⟩ ⟨true, [['n']]⟩] : List FsAction) ≠ [] :=
  ⟨by decide, by decide⟩

/-- Claim C4 (amended): pretend mode suppresses the playlist-file writes,
remote mutations and the state-entry updates of the download path, and the
state-file save, but the state-path determination — including the
legacy-state-file migration — runs before any pretend check and behaves
identically whether pretend is on or off. -/
theorem C4_pretend_amended :
    (∀ (cfg : Option MPath) (op dp : MPath) (oif dif : Bool),
      syncStateSetup true cfg op dp oif dif = syncStateSetup false cfg op dp oif dif) ∧
    (∀ sp : MPath, syncSaveState true sp = []) ∧
    (∀ (playlistid : Nat) (lastsync : List Nat)
      (ibPlaylist : Option (Option (List Nat))) (fileLines : Option (List Str))
      (trackBase : MPath) (tidToPath : List (Nat × MPath)),
      downloadLinkedPlaylist playlistid lastsync ibPlaylist fileLines trackBase
        tidToPath true = ⟨[], none⟩) :=
  ⟨fun _ _ _ _ _ => rfl, fun _ => rfl, downloadLinkedPlaylist_pretend⟩

/-! ## Upload-side track resolution (`_parse_m3u_to_trackids`) -/

/-- One itemized problem line of `_parse_m3u_to_trackids`: a referenced
path that is not a file (`[ INVALID FILE ]`) or has no recorded track ID
(`[ NOT UPLOADED ]`). -/
inductive TrackProblem where
  | invalidFile : MPath → TrackProblem
  | notUploaded : MPath → TrackProblem
deriving DecidableEq, Repr

/-- Dict get on `path_to_trackid` (unique keys). -/
def lookupPathTid (m : List (MPath × Nat)) (p : MPath) : Option Nat :=
  (m.find? (fun kv => kv.1 = p)).map (fun kv => kv.2)

/-- One iteration of the resolution loop of `_parse_m3u_to_trackids`. -/
def trackProblemStep (pathToTid : List (MPath × Nat)) (existingFiles : List MPath)
    (acc : List Nat × List TrackProblem) (p : MPath) : List Nat × List TrackProblem :=
  if ¬ (p ∈ existingFiles) then (acc.1, acc.2 ++ [TrackProblem.invalidFile p])
  else
    match lookupPathTid pathToTid p with
    | none => (acc.1, acc.2 ++ [TrackProblem.notUploaded p])
    | some tid => (acc.1 ++ [tid], acc.2)

/-- `_parse_m3u_to_trackids` (source lines 871-896): parse the playlist,
resolve every path, itemize each problem; an empty parse or any problem
yields `none` (the playlist is skipped). -/
def parseM3uToTrackids (lines : List Str) (trackBase : MPath)
    (pathToTid : List (MPath × Nat)) (existingFiles : List MPath) :
    Option (List Nat) × List TrackProblem :=
  let trackPaths := parseM3u lines trackBase
  if trackPaths.isEmpty then (none, [])
  else
    let r := trackPaths.foldl (trackProblemStep pathToTid existingFiles) ([], [])
    if r.1.length < trackPaths.length then (none, r.2) else (some r.1, r.2)

/-- A reference the upload side cannot resolve: missing file or no
recorded track ID. -/
def unresolvable (pathToTid : List (MPath × Nat)) (existingFiles : List MPath)
    (p : MPath) : Prop :=
  ¬ (p ∈ existingFiles) ∨ lookupPathTid pathToTid p = none

/-- The problem line an unresolvable reference is itemized as. -/
def problemFor (pathToTid : List (MPath × Nat)) (existingFiles : List MPath)
    (p : MPath) : TrackProblem :=
  if ¬ (p ∈ existingFiles) then TrackProblem.invalidFile p
  else TrackProblem.notUploaded p

theorem trackFold_len_count (pathToTid : List (MPath × Nat))
    (existingFiles : List MPath) :
    ∀ (ps : List MPath) (acc : List Nat × List TrackProblem),
      (ps.foldl (trackProblemStep pathToTid existingFiles) acc).1.length
        + (ps.foldl (trackProblemStep pathToTid existingFiles) acc).2.length
        = acc.1.length + acc.2.length + ps.length := by
  intro ps
  induction ps with
  | nil => intro acc; simp
  | cons p ps ih =>
    intro acc
    rw [List.foldl_cons, ih]
    unfold trackProblemStep
    by_cases hmem : p ∈ existingFiles
    · rw [if_neg (not_not_intro hmem)]
      cases lookupPathTid pathToTid p <;> simp <;> omega
    · rw [if_pos hmem]
      simp
      omega

theorem trackFold_probs_ext (pathToTid : List (MPath × Nat))
    (existingFiles : List MPath) :
    ∀ (ps : List MPath) (acc : List Nat × List TrackProblem),
      ∃ t, (ps.foldl (trackProblemStep pathToTid existingFiles) acc).2 = acc.2 ++ t := by
  intro ps
  induction ps with
  | nil => intro acc; exact ⟨[], by simp⟩
  | cons p ps ih =>
    intro acc
    rw [List.foldl_cons]
    obtain ⟨t, ht⟩ := ih (trackProblemStep pathToTid existingFiles acc p)
    rw [ht]
    unfold trackProblemStep
    by_cases hmem : p ∈ existingFiles
    · rw [if_neg (not_not_intro hmem)]
      cases lookupPathTid pathToTid p with
      | none => exact ⟨[TrackProblem.notUploaded p] ++ t, by simp⟩
      | some tid => exact ⟨t, by simp⟩
    · rw [if_pos hmem]
      exact ⟨[TrackProblem.invalidFile p] ++ t, by simp⟩

theorem trackFold_mem (pathToTid : List (MPath × Nat)) (existingFiles : List MPath) :
    ∀ (ps : List MPath) (acc : List Nat × List TrackProblem) (p : MPath),
      p ∈ ps → unresolvable pathToTid existingFiles p →
      problemFor pathToTid existingFiles p
        ∈ (ps.foldl (trackProblemStep pathToTid existingFiles) acc).2 := by
  intro ps
  induction ps with
  | nil => intro acc p hp; simp at hp
  | cons q ps ih =>
    intro acc p hp hu
    rw [List.foldl_cons]
    rcases List.mem_cons.mp hp with h1 | h2
    · subst h1
      have hstep : (trackProblemStep pathToTid existingFiles acc p).2
          = acc.2 ++ [problemFor pathToTid existingFiles p] := by
        unfold trackProblemStep problemFor
        rcases hu with hu1 | hu2
        · rw [if_pos hu1, if_pos hu1]
        · by_cases hmem : p ∈ existingFiles
          · rw [if_neg (by simp [hmem]), if_neg (by simp [hmem]), hu2]
          · rw [if_pos hmem, if_pos hmem]
      obtain ⟨t, ht⟩ := trackFold_probs_ext pathToTid existingFiles ps
        (trackProblemStep pathToTid existingFiles acc p)
      rw [ht, hstep]
      simp
    · exact ih _ p h2 hu

/-- Claim C2 (amended): in the upload direction (`_parse_m3u_to_trackids`)
a playlist containing any unresolvable reference is skipped entirely —
`none` is returned, so `_upload_playlist` returns before any remote push —
and every unresolvable reference is itemized among the reported problems.
In the download direction (`_download_linked_playlist`) unresolvable local
references are itemized only in a debug log: they are filtered out and the
merge proceeds, pushing the merged track list of the resolvable subset to
the remote store, as the concrete run of the second conjunct shows. -/
theorem C2_unresolved_amended :
    (∀ (lines : List Str) (trackBase : MPath) (pathToTid : List (MPath × Nat))
      (existingFiles : List MPath) (p : MPath),
      p ∈ parseM3u lines trackBase →
      unresolvable pathToTid existingFiles p →
      (parseM3uToTrackids lines trackBase pathToTid existingFiles).1 = none ∧
      problemFor pathToTid existingFiles p
        ∈ (parseM3uToTrackids lines trackBase pathToTid existingFiles).2) ∧
    downloadLinkedPlaylist 7 [1] (some (some [1, 3])) (some [['a'], ['b'], ['x']])
        ⟨true, [['m']]⟩ [(1, ⟨true, [['m'], ['a']]⟩), (2, ⟨true, [['m'], ['b']]⟩),
          (3, ⟨true, [['m'], ['c']]⟩)] false
      = ⟨[SyncAction.writeFile [['a'], ['b'], ['c']],
          SyncAction.setTracks 7 [1, 2, 3]], some [1, 2, 3]⟩ := by
  constructor
  · intro lines trackBase pathToTid existingFiles p hp hu
    unfold parseM3uToTrackids
    simp only
    have hne : (parseM3u lines trackBase).isEmpty = false := by
      rcases hq : parseM3u lines trackBase with _ | ⟨q, qs⟩
      · rw [hq] at hp; simp at hp
      · rfl
    rw [if_neg (by simp [hne])]
    have hmem := trackFold_mem pathToTid existingFiles (parseM3u lines trackBase)
      ([], []) p hp hu
    have hlen := trackFold_len_count pathToTid existingFiles
      (parseM3u lines trackBase) ([], [])
    have h2 : 0 < ((parseM3u lines trackBase).foldl
        (trackProblemStep pathToTid existingFiles) ([], [])).2.length := by
      apply List.length_pos.mpr
      intro h0
      rw [h0] at hmem
      simp at hmem
    have hlt : ((parseM3u lines trackBase).foldl
        (trackProblemStep pathToTid existingFiles) ([], [])).1.length
        < (parseM3u lines trackBase).length := by
      simp only [List.length_nil] at hlen
      omega
    rw [if_pos hlt]
    exact ⟨rfl, hmem⟩
  · decide

/-- Claim C2 counterexample: the local playlist parses to a reference that
resolves to no track ID, yet the playlist is not skipped in the download
direction: a track list computed from the resolvable subset is pushed to
the remote store. -/
theorem C2_unresolved_counterexample :
    revLookupPath [(1, ⟨true, [['m'], ['a']]⟩), (2, ⟨true, [['m'], ['b']]⟩),
        (3, ⟨true, [['m'], ['c']]⟩)] ⟨true, [['m'], ['x']]⟩ = none
    ∧ (⟨true, [['m'], ['x']]⟩ : MPath) ∈ parseM3u [['a'], ['b'], ['x']] ⟨true, [['m']]⟩
    ∧ SyncAction.setTracks 7 [1, 2, 3]
        ∈ (downloadLinkedPlaylist 7 [1] (some (some [1, 3])) (some [['a'], ['b'], ['x']])
          ⟨true, [['m']]⟩ [(1, ⟨true, [['m'], ['a']]⟩), (2, ⟨true, [['m'], ['b']]⟩),
            (3, ⟨true, [['m'], ['c']]⟩)] false).actions :=
  ⟨by decide, by decide, by decide⟩

/-- Witness for C2 at a concrete upload-side input whose single reference
is not an existing file. -/
theorem C2_unresolved_witness :
    (parseM3uToTrackids [['a']] ⟨true, [['m']]⟩ [] []).1 = none ∧
    problemFor [] [] ⟨true, [['m'], ['a']]⟩
      ∈ (parseM3uToTrackids [['a']] ⟨true, [['m']]⟩ [] []).2 :=
  C2_unresolved_amended.1 [['a']] ⟨true, [['m']]⟩ [] [] ⟨true, [['m'], ['a']]⟩
    (by decide) (Or.inl (by decide))

/-- Witness for C5 at a concrete base and common sequence. -/
theorem C5_convergence_witness :
    (mergeTrackids [1, 2] [3] [3]).2 = false ∧
    flattenSegs (mergeTrackids [1, 2] [3] [3]).1 = [3] :=
  ⟨(C5_convergence [1, 2] [3]).1, (C5_convergence [1, 2] [3]).2.2⟩

/-- Witness for C10 at a concrete conflicting input. -/
theorem C10_merge_output_invariants_witness :
    ((mergeTrackids [1, 2, 3] [1, 9, 3] [1, 8, 3]).2 = true ↔
      ∃ s ∈ (mergeTrackids [1, 2, 3] [1, 9, 3] [1, 8, 3]).1, isConflictSeg s = true) :=
  (C10_merge_output_invariants [1, 2, 3] [1, 9, 3] [1, 8, 3]).1
